import Mathlib

/-!
Verification of the ordered, parallelized streaming synthesis pipeline of
`src/external/kokoro/kokoro_server.py` (endpoint `/synthesize-stream`,
generator `generate_chunks`, scheduler `start_prefetch`, per-unit worker
`synthesize_sentence`, and the peak-normalization block shared with
`/synthesize`).

The embedding is shallow: text is a list of characters, the regex split
`re.split(r'(?<=[.!?])\s+', text)` is modelled as a recursive scan, the
emitter loop is a pure function of the per-unit synthesis outcomes (the
loop awaits each unit's future in index order, so the emitted event list
depends only on the outcomes, not on completion timing), and the
`pending_futures` dictionary dynamics are modelled as a deterministic
state machine (the dictionary is only ever mutated by the single
generator coroutine). Audio sample arithmetic is modelled over `ℚ`.
-/

/-! ## Segmenter: `sentences = re.split(r'(?<=[.!?])\s+', request.text)`,
then `[s.strip() for s in sentences if s.strip()]` (kokoro_server.py lines
224-225). -/

/-- Python whitespace (`\s` in `re` on `str`, and `str.strip()` with no
argument): 0x09-0x0D, 0x1C-0x1F, space, 0x85, 0xA0 and the Unicode space
separators. -/
def isSpace (c : Char) : Bool :=
  (0x09 ≤ c.val && c.val ≤ 0x0d) || c.val == 0x20 ||
  (0x1c ≤ c.val && c.val ≤ 0x1f) || c.val == 0x85 || c.val == 0xa0 ||
  c.val == 0x1680 || (0x2000 ≤ c.val && c.val ≤ 0x200a) ||
  c.val == 0x2028 || c.val == 0x2029 || c.val == 0x202f ||
  c.val == 0x205f || c.val == 0x3000

/-- The sentence-terminal punctuation class `[.!?]` of the split pattern. -/
def isTermPunct (c : Char) : Bool :=
  c == '.' || c == '!' || c == '?'

/-- Python `str.strip()`: drop leading and trailing whitespace. -/
def strip (l : List Char) : List Char :=
  ((l.dropWhile isSpace).reverse.dropWhile isSpace).reverse

/-- Whether the last character scanned into the current (reversed) piece
is sentence-terminal punctuation — the lookbehind `(?<=[.!?])` test. -/
def lastIsPunct (acc : List Char) : Bool :=
  match acc.head? with
  | some p => isTermPunct p
  | none => false

/-- The scan underlying `re.split(r'(?<=[.!?])\s+', text)`: a split point
is a whitespace character whose immediately preceding character is in
`[.!?]`; the separator `\s+` extends greedily over the whole whitespace
run, which is removed; the lookbehind keeps the punctuation attached to
the preceding piece.  `acc` is the current piece, reversed; `skipping`
records that the scan is inside a separator whitespace run (after which
`acc` is empty, and the next piece starts at the first non-whitespace
character). -/
def splitScan : List Char → List Char → Bool → List (List Char)
  | [], acc, _ => [acc.reverse]
  | c :: rest, acc, skipping =>
    if skipping then
      if isSpace c then splitScan rest acc true
      else splitScan rest [c] false
    else if isSpace c && lastIsPunct acc then
      acc.reverse :: splitScan rest [] true
    else
      splitScan rest (c :: acc) false

/-- `re.split(r'(?<=[.!?])\s+', text)` (line 224). -/
def rawSplit (text : List Char) : List (List Char) :=
  splitScan text [] false

/-- `sentences = [s.strip() for s in sentences if s.strip()]` (line 225). -/
def sentences (text : List Char) : List (List Char) :=
  ((rawSplit text).map strip).filter (fun u => !u.isEmpty)

/-! ## Ordered emitter: the body of `generate_chunks` (lines 213-314).

Per-unit synthesis outcome as observed by the emitter at `await future`:
either the worker raised (caught at lines 277-279) or it returned the
list of WAV byte strings produced by `synthesize_sentence`. -/

/-- Result of awaiting one sentence's future. -/
inductive Outcome where
  | ok (chunks : List (List Nat))
  | failed (reason : String)
deriving DecidableEq

/-- One Server-Sent Event of the stream: an audio payload event
(lines 289-299), the terminal completion event (line 305), or the
terminal error event (line 312). -/
inductive Event where
  | audio (chunk_index sentence_index sub_chunk_index total_sentences : Nat)
      (payload : List Nat) (audio_size : Nat) (is_final : Bool)
  | complete (total_chunks : Nat)
  | error (msg : String)
deriving DecidableEq

/-- The events emitted for one successful sentence (the
`for sub_idx, wav_bytes in enumerate(audio_chunks)` loop, lines 285-300):
`ci` is the running `chunk_index` on entry. -/
def sentenceEvents (N si ci : Nat) (chunks : List (List Nat)) : List Event :=
  chunks.enum.map fun p =>
    Event.audio (ci + p.1) si p.1 N p.2 p.2.length
      (decide (si = N - 1) && decide (p.1 = chunks.length - 1))

/-- The `for sentence_idx in range(len(sentences))` loop followed by the
completion event (lines 261-305): a failed future is skipped
(`except ... continue`), an empty chunk list is skipped
(`if not audio_chunks: continue`), otherwise the sentence's events are
emitted and `chunk_index` advances by the number of sub-chunks. -/
def emitUnits (N : Nat) (out : Nat → Outcome) : List Nat → Nat → List Event
  | [], ci => [Event.complete ci]
  | i :: rest, ci =>
    match out i with
    | .failed _ => emitUnits N out rest ci
    | .ok chunks =>
      if chunks.isEmpty then emitUnits N out rest ci
      else sentenceEvents N i ci chunks ++ emitUnits N out rest (ci + chunks.length)

/-- The whole generator `generate_chunks`: `setupError` models an
exception raised by the code before the loop (e.g. the voicepack path
check, line 215), caught by the outer `except` which yields the error
event; otherwise the text is segmented, the empty segmentation yields a
bare completion event (lines 229-231), and otherwise the emitter loop
runs. -/
def generate_chunks (setupError : Option String) (text : List Char)
    (out : Nat → Outcome) : List Event :=
  match setupError with
  | some e => [Event.error e]
  | none =>
    let sents := sentences text
    if sents.isEmpty then [Event.complete 0]
    else emitUnits sents.length out (List.range sents.length) 0

/-- The `sentence_index` field of an audio event. -/
def sentIdxOf : Event → Option Nat
  | .audio _ si _ _ _ _ _ => some si
  | _ => none

/-- The sequence of `sentence_index` values carried by the audio events
of a stream, in emission order. -/
def sentenceIndices (evs : List Event) : List Nat :=
  evs.filterMap sentIdxOf

/-- The `is_final` flag of an audio event. -/
def finalFlagOf : Event → Option Bool
  | .audio _ _ _ _ _ _ f => some f
  | _ => none

/-- The sequence of `is_final` flags of the audio events, in order. -/
def finalFlags (evs : List Event) : List Bool :=
  evs.filterMap finalFlagOf

/-- Whether an event is an audio payload event. -/
def Event.isAudio : Event → Bool
  | .audio _ _ _ _ _ _ _ => true
  | _ => false

/-- Whether an event is terminal (completion or error). -/
def Event.isTerminal : Event → Bool
  | .complete _ => true
  | .error _ => true
  | _ => false

/-- Number of emitted audio payload events. -/
def numPayloads (evs : List Event) : Nat :=
  (evs.filter Event.isAudio).length

/-! ## Prefetch scheduler: the `pending_futures` dictionary (lines
233-279).  The dictionary is mutated only by the generator coroutine, so
its key set evolves deterministically; worker completion order cannot
change it.  We record the key set (in insertion order) and the history of
indices actually handed to the executor. -/

/-- `PREFETCH_COUNT = 2` (line 237). -/
def PREFETCH_COUNT : Nat := 2

/-- `ThreadPoolExecutor(max_workers=2)` (line 179). -/
def WORKER_COUNT : Nat := 2

/-- Key set of `pending_futures` (insertion order) plus the history of
dispatches actually submitted to the executor. -/
structure SchedState where
  pending : List Nat
  dispatched : List Nat
deriving DecidableEq

/-- `start_prefetch(idx)` (lines 240-254): no-op when `idx >= len(sentences)`
or `idx in pending_futures`; otherwise submits the sentence and records
the future. -/
def start_prefetch (N idx : Nat) (s : SchedState) : SchedState :=
  if N ≤ idx ∨ idx ∈ s.pending then s
  else { pending := s.pending ++ [idx], dispatched := s.dispatched ++ [idx] }

/-- Calling `start_prefetch` on each index of the Python range `[a, b)`. -/
def dispatchRange (N : Nat) (s : SchedState) (a b : Nat) : SchedState :=
  (List.range' a (b - a)).foldl (fun t j => start_prefetch N j t) s

/-- One iteration of the emitter loop as seen by `pending_futures`
(lines 261-279): `start_prefetch(sentence_idx)` followed by
`start_prefetch(j)` for `j in range(sentence_idx+1, min(sentence_idx+
PREFETCH_COUNT+1, len(sentences)))` — together a dispatch over
`[i, min(i+PC+1, N))` — then the await; on success
`del pending_futures[sentence_idx]`, on failure the `del` is skipped
(it sits after the `await` inside the `try`).  Returns the key set at
the await point and the post-iteration state. -/
def schedIter (N PC : Nat) (fails : Nat → Bool) (i : Nat) (s : SchedState) :
    List Nat × SchedState :=
  let s2 := dispatchRange N s i (min (i + PC + 1) N)
  (s2.pending,
    if fails i then s2 else { s2 with pending := s2.pending.erase i })

/-- Running the emitter loop over a list of iteration indices, collecting
the `pending_futures` key set at each await point. -/
def schedRun (N PC : Nat) (fails : Nat → Bool) :
    List Nat → SchedState → List (List Nat) × SchedState
  | [], s => ([], s)
  | i :: rest, s =>
    let p := schedIter N PC fails i s
    let q := schedRun N PC fails rest p.2
    (p.1 :: q.1, q.2)

/-- The initial prefetch batch
`for i in range(min(PREFETCH_COUNT + 1, len(sentences))): start_prefetch(i)`
(lines 257-258). -/
def initSched (N PC : Nat) : SchedState :=
  dispatchRange N ⟨[], []⟩ 0 (min (PC + 1) N)

/-- All `pending_futures` key-set snapshots of one stream: after the
initial batch, then at each iteration's await point. -/
def schedSnapshots (N PC : Nat) (fails : Nat → Bool) : List (List Nat) :=
  (initSched N PC).pending ::
    (schedRun N PC fails (List.range N) (initSched N PC)).1

/-- The full dispatch history of one stream. -/
def dispatchHistory (N PC : Nat) (fails : Nat → Bool) : List Nat :=
  (schedRun N PC fails (List.range N) (initSched N PC)).2.dispatched

/-! ## Peak normalization (lines 113-119 of `/synthesize` and lines
198-203 of `synthesize_sentence`; both blocks are identical). -/

/-- `np.abs(audio).max()` over a sample buffer (samples as rationals).
The fold starts at 0, which for a nonempty buffer agrees with numpy
since every absolute value is nonnegative. -/
def maxAbs (audio : List ℚ) : ℚ :=
  (audio.map (fun x => |x|)).foldr max 0

/-- `target_peak = 0.707` (-3 dB). -/
def target_peak : ℚ := 707 / 1000

/-- The normalization block: when requested and the peak is strictly
positive, every sample is scaled by `target_peak / max_val`; otherwise
the buffer is returned unchanged (in particular no division is
performed when the peak is zero). -/
def normalizeAudio (normalize : Bool) (audio : List ℚ) : List ℚ :=
  if normalize then
    let max_val := maxAbs audio
    if 0 < max_val then
      let gain := target_peak / max_val
      audio.map (fun x => x * gain)
    else audio
  else audio

/-! ## Derived notions and concrete fixtures used by the theorems. -/

/-- The block of `sentence_index` values contributed by unit `i`:
one copy per emitted sub-chunk for a successful unit, nothing for a
failed unit. -/
def unitBlock (out : Nat → Outcome) (i : Nat) : List Nat :=
  match out i with
  | .ok c => List.replicate c.length i
  | .failed _ => []

/-- Number of audio payload events contributed by unit `i`. -/
def unitCount (out : Nat → Outcome) (i : Nat) : Nat :=
  match out i with
  | .ok c => c.length
  | .failed _ => 0

/-- The filter kept by the `pending_futures` key set while the emitter
sits at iteration `i`: indices not yet awaited, plus failed indices whose
entry was never deleted. -/
def keepP (fails : Nat → Bool) (i k : Nat) : Bool :=
  decide (i ≤ k) || fails k

/-- Reassemble a split: pieces interleaved with the removed separators. -/
def interleave : List (List Char) → List (List Char) → List Char
  | [], _ => []
  | p :: _, [] => p
  | p :: ps, s :: ss => p ++ s ++ interleave ps ss

/-- Characters of a string literal. -/
def chars (s : String) : List Char := s.data

/-- Outcome pattern where unit 0 fails and every other unit yields one
chunk. -/
def failFirst : Nat → Outcome :=
  fun i => if i = 0 then Outcome.failed "boom" else Outcome.ok [[5]]

/-- Outcome pattern where the last of two units fails. -/
def failSecond : Nat → Outcome :=
  fun i => if i = 1 then Outcome.failed "boom" else Outcome.ok [[7]]

/-- Outcome pattern where every unit yields exactly one chunk. -/
def allOk : Nat → Outcome :=
  fun _ => Outcome.ok [[0]]

/-! ## Emitter lemmas. -/

lemma sentenceIndices_append (l1 l2 : List Event) :
    sentenceIndices (l1 ++ l2) = sentenceIndices l1 ++ sentenceIndices l2 :=
  List.filterMap_append l1 l2 sentIdxOf

lemma sentenceIndices_sentenceEvents (N si ci : Nat) (chunks : List (List Nat)) :
    sentenceIndices (sentenceEvents N si ci chunks) =
      List.replicate chunks.length si := by
  unfold sentenceIndices sentenceEvents
  rw [List.filterMap_map]
  have h : (sentIdxOf ∘ fun p : Nat × List Nat =>
      Event.audio (ci + p.1) si p.1 N p.2 p.2.length
        (decide (si = N - 1) && decide (p.1 = chunks.length - 1))) =
      fun _ => some si := by
    funext p; rfl
  rw [h]
  rw [show (fun _ : Nat × List Nat => some si) = some ∘ (fun _ => si) from rfl,
    List.filterMap_eq_map]
  simp

lemma sentenceIndices_emitUnits (N : Nat) (out : Nat → Outcome)
    (is : List Nat) (ci : Nat) :
    sentenceIndices (emitUnits N out is ci) = (is.map (unitBlock out)).flatten := by
  induction is generalizing ci with
  | nil => simp [emitUnits, sentenceIndices, sentIdxOf]
  | cons i rest ih =>
    cases h : out i with
    | failed r => simp [emitUnits, h, ih, unitBlock]
    | ok c =>
      by_cases hc : c.isEmpty
      · have hc' : c = [] := List.isEmpty_iff.mp hc
        simp [emitUnits, h, hc, hc', ih, unitBlock]
      · simp [emitUnits, h, hc, sentenceIndices_append,
          sentenceIndices_sentenceEvents, ih, unitBlock]

lemma flatten_map_singleton (l : List Nat) : (l.map (fun i => [i])).flatten = l := by
  induction l with
  | nil => rfl
  | cons x xs ih => simp [ih]

lemma mem_unitBlocks (out : Nat → Outcome) (is : List Nat) (i : Nat) :
    i ∈ (is.map (unitBlock out)).flatten ↔ i ∈ is ∧ 0 < unitCount out i := by
  simp only [List.mem_flatten, List.mem_map]
  constructor
  · rintro ⟨l, ⟨j, hjs, rfl⟩, hil⟩
    unfold unitBlock at hil
    cases h : out j with
    | failed r => rw [h] at hil; simp at hil
    | ok c =>
      rw [h] at hil
      obtain ⟨hlen, rfl⟩ := List.mem_replicate.mp hil
      exact ⟨hjs, by simp [unitCount, h, Nat.pos_of_ne_zero hlen]⟩
  · rintro ⟨his, hcount⟩
    cases h : out i with
    | failed r => simp [unitCount, h] at hcount
    | ok c =>
      refine ⟨List.replicate c.length i, ⟨i, his, by simp [unitBlock, h]⟩, ?_⟩
      rw [unitCount, h] at hcount
      exact List.mem_replicate.mpr ⟨Nat.pos_iff_ne_zero.mp hcount, rfl⟩

lemma numPayloads_append (l1 l2 : List Event) :
    numPayloads (l1 ++ l2) = numPayloads l1 + numPayloads l2 := by
  simp [numPayloads, List.filter_append]

lemma numPayloads_sentenceEvents (N si ci : Nat) (chunks : List (List Nat)) :
    numPayloads (sentenceEvents N si ci chunks) = chunks.length := by
  unfold numPayloads sentenceEvents
  rw [List.filter_map]
  have h : (Event.isAudio ∘ fun p : Nat × List Nat =>
      Event.audio (ci + p.1) si p.1 N p.2 p.2.length
        (decide (si = N - 1) && decide (p.1 = chunks.length - 1))) =
      fun _ => true := by
    funext p; rfl
  rw [h]
  simp

lemma numPayloads_emitUnits (N : Nat) (out : Nat → Outcome)
    (is : List Nat) (ci : Nat) :
    numPayloads (emitUnits N out is ci) = (is.map (unitCount out)).sum := by
  induction is generalizing ci with
  | nil => simp [emitUnits, numPayloads, Event.isAudio]
  | cons i rest ih =>
    cases h : out i with
    | failed r => simp [emitUnits, h, ih, unitCount]
    | ok c =>
      by_cases hc : c.isEmpty
      · have hc' : c = [] := List.isEmpty_iff.mp hc
        simp [emitUnits, h, hc, hc', ih, unitCount]
      · simp [emitUnits, h, hc, numPayloads_append,
          numPayloads_sentenceEvents, ih, unitCount]

lemma emitUnits_complete (N : Nat) (out : Nat → Outcome)
    (is : List Nat) (ci : Nat) :
    ∃ front, emitUnits N out is ci =
        front ++ [Event.complete (ci + (is.map (unitCount out)).sum)] ∧
      ∀ e ∈ front, e.isAudio = true := by
  induction is generalizing ci with
  | nil => exact ⟨[], by simp [emitUnits], by simp⟩
  | cons i rest ih =>
    cases h : out i with
    | failed r =>
      obtain ⟨front, heq, hall⟩ := ih ci
      exact ⟨front, by simp [emitUnits, h, heq, unitCount], hall⟩
    | ok c =>
      by_cases hc : c.isEmpty
      · have hc' : c = [] := List.isEmpty_iff.mp hc
        obtain ⟨front, heq, hall⟩ := ih ci
        exact ⟨front, by simp [emitUnits, h, hc, hc', heq, unitCount], hall⟩
      · obtain ⟨front, heq, hall⟩ := ih (ci + c.length)
        refine ⟨sentenceEvents N i ci c ++ front, ?_, ?_⟩
        · have hsum : ci + c.length + (rest.map (unitCount out)).sum =
              ci + ((i :: rest).map (unitCount out)).sum := by
            simp [unitCount, h]; omega
          simp [emitUnits, h, hc, heq, hsum, List.append_assoc]
        · intro e he
          rcases List.mem_append.mp he with hl | hr
          · obtain ⟨p, _, rfl⟩ := List.mem_map.mp hl
            rfl
          · exact hall e hr

lemma isTerminal_false_of_isAudio (e : Event) (h : e.isAudio = true) :
    e.isTerminal = false := by
  cases e <;> simp_all [Event.isAudio, Event.isTerminal]

/-- Claim C1 (counterexample): with input "A. B." (two segmented units)
and a latency/failure pattern in which unit 0's synthesis fails, the
emitted sentence_index sequence is [1], not 0, 1: the failed unit leaves
a gap, contradicting the claimed exact equality with 0, ..., N-1 for
every failure pattern. -/
theorem C1_counterexample :
    (sentences (chars "A. B.")).length = 2 ∧
    failFirst 0 = Outcome.failed "boom" ∧
    sentenceIndices (generate_chunks none (chars "A. B.") failFirst) ≠
      List.range 2 := by decide

lemma sentenceIndices_of_single_ok (text : List Char) (out : Nat → Outcome)
    (h : ∀ i, i < (sentences text).length → ∃ wav, out i = Outcome.ok [wav]) :
    sentenceIndices (generate_chunks none text out) =
      List.range (sentences text).length := by
  unfold generate_chunks
  by_cases he : (sentences text).isEmpty
  · have he2 : sentences text = [] := List.isEmpty_iff.mp he
    simp [he, he2, sentenceIndices, sentIdxOf]
  · rw [if_neg he]
    rw [sentenceIndices_emitUnits]
    have hmap : (List.range (sentences text).length).map (unitBlock out) =
        (List.range (sentences text).length).map (fun i => [i]) := by
      apply List.map_congr_left
      intro i hi
      obtain ⟨wav, hw⟩ := h i (List.mem_range.mp hi)
      simp [unitBlock, hw]
    rw [hmap, flatten_map_singleton]

/-- Claim C1 (amended): when every segmented unit's synthesis succeeds
with exactly one audio chunk, the sequence of sentence_index values of
the emitted audio events equals 0, 1, ..., N-1 exactly; a failed unit is
skipped outright (leaving a gap), and a unit synthesized as several
sub-chunks contributes several consecutive events with the same index. -/
theorem C1_order_all_single_ok (text : List Char) (out : Nat → Outcome)
    (h : ∀ i, i < (sentences text).length → ∃ wav, out i = Outcome.ok [wav]) :
    sentenceIndices (generate_chunks none text out) =
      List.range (sentences text).length :=
  sentenceIndices_of_single_ok text out h

/-- Witness for C1 (amended) at the concrete input "A. B." with every
unit succeeding with one chunk. -/
theorem C1_witness :
    sentenceIndices (generate_chunks none (chars "A. B.") allOk) =
      List.range (sentences (chars "A. B.")).length :=
  C1_order_all_single_ok (chars "A. B.") allOk (fun _ _ => ⟨[0], rfl⟩)

/-- Claim C2 (counterexample): with input "A. B." and unit 0 failing,
the full emitted stream is one audio event for unit 1 and the completion
event: no event of any kind is emitted for the failed unit 0, so a failed
unit is not emitted at its original position as an empty-audio payload
tagged with its failure reason. -/
theorem C2_counterexample :
    failFirst 0 = Outcome.failed "boom" ∧
    (sentences (chars "A. B.")).length = 2 ∧
    generate_chunks none (chars "A. B.") failFirst =
      [Event.audio 0 1 0 2 [5] 1 true, Event.complete 1] := by decide

/-- Claim C2 (amended): a unit whose synthesis fails is silently
skipped: no event at all carries its index; the pipeline still continues
rather than aborting — the terminal completion event is emitted, and
every other unit that succeeds with non-empty output is still emitted. -/
theorem C2_failed_unit_skipped (text : List Char) (out : Nat → Outcome)
    (i : Nat) (r : String) (hf : out i = Outcome.failed r) :
    i ∉ sentenceIndices (generate_chunks none text out) ∧
    (∃ tc, (generate_chunks none text out).getLast? =
      some (Event.complete tc)) ∧
    ∀ j, j < (sentences text).length → 0 < unitCount out j →
      j ∈ sentenceIndices (generate_chunks none text out) := by
  unfold generate_chunks
  by_cases he : (sentences text).isEmpty
  · have he' : sentences text = [] := List.isEmpty_iff.mp he
    refine ⟨?_, ⟨0, ?_⟩, ?_⟩
    · simp [he, sentenceIndices, sentIdxOf]
    · simp [he]
    · intro j hj
      rw [he'] at hj
      simp at hj
  · rw [if_neg he]
    refine ⟨?_, ?_, ?_⟩
    · rw [sentenceIndices_emitUnits, mem_unitBlocks]
      rintro ⟨-, hcount⟩
      rw [unitCount, hf] at hcount
      simp at hcount
    · obtain ⟨front, heq, -⟩ :=
        emitUnits_complete (sentences text).length out
          (List.range (sentences text).length) 0
      exact ⟨_, by rw [heq, List.getLast?_concat]⟩
    · intro j hj hcount
      rw [sentenceIndices_emitUnits, mem_unitBlocks]
      exact ⟨List.mem_range.mpr hj, hcount⟩

/-- Witness for C2 (amended) at the concrete input "A. B." with unit 0
failing: unit 0 produces no event, unit 1 is still emitted. -/
theorem C2_witness :
    0 ∉ sentenceIndices (generate_chunks none (chars "A. B.") failFirst) ∧
    1 ∈ sentenceIndices (generate_chunks none (chars "A. B.") failFirst) :=
  ⟨(C2_failed_unit_skipped (chars "A. B.") failFirst 0 "boom" rfl).1,
   (C2_failed_unit_skipped (chars "A. B.") failFirst 0 "boom" rfl).2.2 1
     (by decide) (by decide)⟩

/-- Claim C3 (counterexample): with input "A. B." (two segmented units)
and unit 0 failing, exactly one audio payload is emitted and no
failure-marker event of any kind exists (the stream is one audio event
plus the completion event), so emitted payloads + explicit failure
markers = 1 + 0 ≠ 2 = segmented unit count. -/
theorem C3_counterexample :
    (sentences (chars "A. B.")).length = 2 ∧
    numPayloads (generate_chunks none (chars "A. B.") failFirst) = 1 ∧
    generate_chunks none (chars "A. B.") failFirst =
      [Event.audio 0 1 0 2 [5] 1 true, Event.complete 1] := by decide

/-- Claim C3 (amended): the number of emitted audio payloads equals the
sum over the successful units of their sub-chunk counts (failed units
contribute nothing and produce no marker), and the terminal event is a
completion event whose total_chunks equals the number of emitted
payloads (all of which are non-failed). -/
theorem C3_payload_count (text : List Char) (out : Nat → Outcome) :
    (generate_chunks none text out).getLast? =
      some (Event.complete (numPayloads (generate_chunks none text out))) ∧
    numPayloads (generate_chunks none text out) =
      ((List.range (sentences text).length).map (unitCount out)).sum := by
  unfold generate_chunks
  by_cases he : (sentences text).isEmpty
  · have he' : sentences text = [] := List.isEmpty_iff.mp he
    simp [he, he', numPayloads, Event.isAudio]
  · rw [if_neg he]
    constructor
    · obtain ⟨front, heq, -⟩ :=
        emitUnits_complete (sentences text).length out
          (List.range (sentences text).length) 0
      rw [heq, List.getLast?_concat, ← heq, numPayloads_emitUnits]
      simp
    · exact numPayloads_emitUnits _ _ _ _

/-- Claim C10: every stream ends in exactly one terminal event — a
completion event or an error event — and no audio payload (or any other
event) follows it: the terminal event is the last event, and every
earlier event is non-terminal. -/
theorem C10_single_terminal (setupError : Option String) (text : List Char)
    (out : Nat → Outcome) :
    ∃ t, (generate_chunks setupError text out).getLast? = some t ∧
      t.isTerminal = true ∧
      ∀ e ∈ (generate_chunks setupError text out).dropLast,
        e.isTerminal = false := by
  cases setupError with
  | some msg => exact ⟨Event.error msg, by simp [generate_chunks], rfl, by
      simp [generate_chunks]⟩
  | none =>
    unfold generate_chunks
    by_cases he : (sentences text).isEmpty
    · exact ⟨Event.complete 0, by simp [he], rfl, by simp [he]⟩
    · rw [if_neg he]
      obtain ⟨front, heq, hall⟩ :=
        emitUnits_complete (sentences text).length out
          (List.range (sentences text).length) 0
      refine ⟨Event.complete (0 + ((List.range (sentences text).length).map
          (unitCount out)).sum), ?_, rfl, ?_⟩
      · rw [heq, List.getLast?_concat]
      · intro e hee
        rw [heq, List.dropLast_concat] at hee
        exact isTerminal_false_of_isAudio e (hall e hee)

/-- Witness for C10 at a concrete stream. -/
theorem C10_witness :
    ∃ t, (generate_chunks none (chars "A. B.") allOk).getLast? = some t ∧
      t.isTerminal = true ∧
      ∀ e ∈ (generate_chunks none (chars "A. B.") allOk).dropLast,
        e.isTerminal = false :=
  C10_single_terminal none (chars "A. B.") allOk

/-! ## Scheduler lemmas. -/

lemma range_split (j n : Nat) :
    List.range (j + n) = List.range j ++ List.range' j n := by
  rw [List.range_eq_range', List.range_eq_range']
  have h2 := List.range'_append 0 j n 1
  simp only [Nat.zero_add, Nat.one_mul] at h2
  rw [Nat.add_comm j n]
  exact h2.symm

lemma keepP_true_of_le (fails : Nat → Bool) (i k : Nat) (h : i ≤ k) :
    keepP fails i k = true := by
  simp [keepP, h]

lemma dispatchRange_invariant (N i : Nat) (fails : Nat → Bool) :
    ∀ (n a D : Nat) (s : SchedState), i ≤ a → a ≤ D → D ≤ a + n → a + n ≤ N →
      s.pending = (List.range D).filter (keepP fails i) →
      ((List.range' a n).foldl (fun t j => start_prefetch N j t) s).pending =
          (List.range (a + n)).filter (keepP fails i) ∧
        ((List.range' a n).foldl (fun t j => start_prefetch N j t) s).dispatched =
          s.dispatched ++ List.range' D (a + n - D) := by
  intro n
  induction n with
  | zero =>
    intro a D s hia haD hDn hN hp
    have hDa : D = a := by omega
    subst hDa
    simp [List.range'_zero, hp]
  | succ n ih =>
    intro a D s hia haD hDn hN hp
    rw [List.range'_succ]
    simp only [List.foldl_cons]
    by_cases hlt : a < D
    · have hmem : a ∈ s.pending := by
        rw [hp]
        exact List.mem_filter.mpr
          ⟨List.mem_range.mpr hlt, keepP_true_of_le fails i a hia⟩
      have hnoop : start_prefetch N a s = s := by
        simp [start_prefetch, hmem]
      rw [hnoop]
      have hrec := ih (a + 1) D s (by omega) (by omega) (by omega) (by omega) hp
      rw [show a + 1 + n = a + (n + 1) from by omega] at hrec
      exact hrec
    · have haD2 : a = D := by omega
      subst haD2
      have hcond : ¬ (N ≤ a ∨ a ∈ s.pending) := by
        push_neg
        refine ⟨by omega, ?_⟩
        rw [hp]
        intro hmem
        have := List.mem_range.mp (List.mem_filter.mp hmem).1
        omega
      have hstep : start_prefetch N a s =
          { pending := s.pending ++ [a], dispatched := s.dispatched ++ [a] } := by
        rw [start_prefetch, if_neg hcond]
      rw [hstep]
      have hp2 : s.pending ++ [a] =
          (List.range (a + 1)).filter (keepP fails i) := by
        rw [List.range_succ, List.filter_append, hp]
        congr 1
        simp [keepP_true_of_le fails i a hia]
      have hrec := ih (a + 1) (a + 1)
        { pending := s.pending ++ [a], dispatched := s.dispatched ++ [a] }
        (by omega) (by omega) (by omega) (by omega) hp2
      constructor
      · rw [show a + (n + 1) = a + 1 + n from by omega]
        exact hrec.1
      · rw [hrec.2]
        rw [show a + 1 + n - (a + 1) = n from by omega,
          show a + (n + 1) - a = n + 1 from by omega,
          List.range'_succ, List.append_assoc]
        rfl

lemma schedIter_characterize (N PC : Nat) (fails : Nat → Bool) (i D : Nat)
    (s : SchedState) (hiN : i < N) (hiD : i ≤ D)
    (hD : D ≤ min (i + PC + 1) N)
    (hp : s.pending = (List.range D).filter (keepP fails i))
    (hd : s.dispatched = List.range D) :
    (schedIter N PC fails i s).1 =
        (List.range (min (i + PC + 1) N)).filter (keepP fails i) ∧
      (schedIter N PC fails i s).2.pending =
        (List.range (min (i + PC + 1) N)).filter (keepP fails (i + 1)) ∧
      (schedIter N PC fails i s).2.dispatched =
        List.range (min (i + PC + 1) N) := by
  have hrec := dispatchRange_invariant N i fails (min (i + PC + 1) N - i) i D s
    (le_refl i) hiD (by omega) (by omega) hp
  rw [show i + (min (i + PC + 1) N - i) = min (i + PC + 1) N from by omega]
    at hrec
  have hpend2 : (dispatchRange N s i (min (i + PC + 1) N)).pending =
      (List.range (min (i + PC + 1) N)).filter (keepP fails i) := by
    rw [dispatchRange]
    exact hrec.1
  have hdisp2 : (dispatchRange N s i (min (i + PC + 1) N)).dispatched =
      List.range (min (i + PC + 1) N) := by
    rw [dispatchRange]
    rw [hrec.2, hd]
    rw [show min (i + PC + 1) N = D + (min (i + PC + 1) N - D) from by omega,
      range_split]
    rw [show D + (min (i + PC + 1) N - D) - D = min (i + PC + 1) N - D
      from by omega]
  have hiter : schedIter N PC fails i s =
      ((dispatchRange N s i (min (i + PC + 1) N)).pending,
        if fails i then dispatchRange N s i (min (i + PC + 1) N)
        else { dispatchRange N s i (min (i + PC + 1) N) with
          pending :=
            (dispatchRange N s i (min (i + PC + 1) N)).pending.erase i }) := rfl
  rw [hiter]
  by_cases hfi : fails i = true
  · have hpe : keepP fails i = keepP fails (i + 1) := by
      funext k
      by_cases hk : k = i
      · subst hk
        simp [keepP, hfi]
      · unfold keepP
        congr 1
        exact decide_eq_decide.mpr (by omega)
    rw [if_pos hfi]
    exact ⟨hpend2, by rw [hpend2, hpe], hdisp2⟩
  · have hfi2 : fails i = false := Bool.eq_false_iff.mpr hfi
    have hnd : ((List.range (min (i + PC + 1) N)).filter
        (keepP fails i)).Nodup :=
      List.Nodup.filter _ (List.nodup_range _)
    have herase : ((List.range (min (i + PC + 1) N)).filter
          (keepP fails i)).erase i =
        (List.range (min (i + PC + 1) N)).filter (keepP fails (i + 1)) := by
      rw [List.Nodup.erase_eq_filter hnd, List.filter_filter]
      apply List.filter_congr
      intro k hk
      by_cases hk2 : k = i
      · subst hk2
        simp [keepP, hfi2]
      · have hbne : (k != i) = true := by simp [hk2]
        rw [hbne, Bool.true_and]
        unfold keepP
        congr 1
        exact decide_eq_decide.mpr (by omega)
    rw [if_neg hfi]
    refine ⟨hpend2, ?_, hdisp2⟩
    show (dispatchRange N s i (min (i + PC + 1) N)).pending.erase i = _
    rw [hpend2, herase]

lemma schedRun_characterize (N PC : Nat) (fails : Nat → Bool) :
    ∀ (m i D : Nat) (s : SchedState), i + m = N → 0 < m → i ≤ D →
      D ≤ min (i + PC + 1) N →
      s.pending = (List.range D).filter (keepP fails i) →
      s.dispatched = List.range D →
      (∀ snap ∈ (schedRun N PC fails (List.range' i m) s).1,
        ∃ j, i ≤ j ∧ j < N ∧
          snap = (List.range (min (j + PC + 1) N)).filter (keepP fails j)) ∧
      (schedRun N PC fails (List.range' i m) s).2.dispatched =
        List.range N := by
  intro m
  induction m with
  | zero =>
    intro i D s _ hpos
    omega
  | succ m ih =>
    intro i D s hiN hpos hiD hD hp hd
    rw [List.range'_succ]
    have hrun : schedRun N PC fails (i :: List.range' (i + 1) m) s =
        ((schedIter N PC fails i s).1 ::
          (schedRun N PC fails (List.range' (i + 1) m)
            (schedIter N PC fails i s).2).1,
          (schedRun N PC fails (List.range' (i + 1) m)
            (schedIter N PC fails i s).2).2) := rfl
    rw [hrun]
    obtain ⟨hsnap, hpend, hdisp⟩ :=
      schedIter_characterize N PC fails i D s (by omega) hiD hD hp hd
    by_cases hm : m = 0
    · subst hm
      have hrun0 : schedRun N PC fails (List.range' (i + 1) 0)
          (schedIter N PC fails i s).2 =
          ([], (schedIter N PC fails i s).2) := rfl
      rw [hrun0]
      constructor
      · intro snap hsnap2
        have : snap = (schedIter N PC fails i s).1 := by
          simpa using hsnap2
        exact ⟨i, le_refl i, by omega, by rw [this, hsnap]⟩
      · show (schedIter N PC fails i s).2.dispatched = List.range N
        rw [hdisp]
        congr 1
        omega
    · have hrest := ih (i + 1) (min (i + PC + 1) N)
        ((schedIter N PC fails i s).2) (by omega) (Nat.pos_of_ne_zero hm)
        (by omega) (by omega) hpend hdisp
      constructor
      · intro snap hsnap2
        rcases List.mem_cons.mp hsnap2 with heq | hmem
        · exact ⟨i, le_refl i, by omega, by rw [heq, hsnap]⟩
        · obtain ⟨j, h1, h2, h3⟩ := hrest.1 snap hmem
          exact ⟨j, by omega, h2, h3⟩
      · exact hrest.2

lemma initSched_characterize (N PC : Nat) (fails : Nat → Bool) :
    (initSched N PC).pending =
        (List.range (min (PC + 1) N)).filter (keepP fails 0) ∧
      (initSched N PC).dispatched = List.range (min (PC + 1) N) := by
  have hrec := dispatchRange_invariant N 0 fails (min (PC + 1) N) 0 0
    ⟨[], []⟩ (le_refl 0) (le_refl 0) (by omega) (by omega) (by simp)
  rw [Nat.zero_add] at hrec
  have hpend : (initSched N PC).pending =
      (List.range (min (PC + 1) N)).filter (keepP fails 0) := by
    rw [initSched, dispatchRange]
    rw [show min (PC + 1) N - 0 = min (PC + 1) N from by omega]
    exact hrec.1
  refine ⟨hpend, ?_⟩
  rw [initSched, dispatchRange]
  rw [show min (PC + 1) N - 0 = min (PC + 1) N from by omega]
  rw [hrec.2]
  simp [List.range_eq_range']

lemma schedSnapshots_characterize (N PC : Nat) (fails : Nat → Bool) :
    ∀ snap ∈ schedSnapshots N PC fails,
      ∃ j, j ≤ N ∧
        snap = (List.range (min (j + PC + 1) N)).filter (keepP fails j) := by
  intro snap hmem
  have hinit := initSched_characterize N PC fails
  rcases List.mem_cons.mp hmem with heq | hrest
  · refine ⟨0, by omega, ?_⟩
    rw [heq, hinit.1]
    congr 2
    omega
  · cases N with
    | zero =>
      have : schedRun 0 PC fails (List.range 0) (initSched 0 PC) =
          ([], initSched 0 PC) := rfl
      rw [this] at hrest
      simp at hrest
    | succ n =>
      have hchar := schedRun_characterize (n + 1) PC fails (n + 1) 0
        (min (PC + 1) (n + 1)) (initSched (n + 1) PC) (by omega) (by omega)
        (by omega) (by omega) hinit.1 hinit.2
      rw [List.range_eq_range'] at hrest
      obtain ⟨j, -, hj2, hj3⟩ := hchar.1 snap hrest
      exact ⟨j, by omega, hj3⟩

lemma snapshot_length_bound (N PC j : Nat) (fails : Nat → Bool)
    (hjN : j ≤ N) :
    ((List.range (min (j + PC + 1) N)).filter (keepP fails j)).length ≤
      ((List.range N).filter fails).length + (PC + 1) := by
  have hjM : j ≤ min (j + PC + 1) N := by omega
  rw [show min (j + PC + 1) N = j + (min (j + PC + 1) N - j) from by omega,
    range_split, List.filter_append, List.length_append]
  have h1 : ((List.range j).filter (keepP fails j)).length ≤
      ((List.range N).filter fails).length := by
    have heq : (List.range j).filter (keepP fails j) =
        (List.range j).filter fails := by
      apply List.filter_congr
      intro k hk
      have hkj : k < j := List.mem_range.mp hk
      have hnk : ¬ j ≤ k := by omega
      simp [keepP, hnk]
    rw [heq]
    exact ((List.range_sublist.mpr hjN).filter fails).length_le
  have h2 : ((List.range' j (min (j + PC + 1) N - j)).filter
      (keepP fails j)).length ≤ PC + 1 := by
    calc ((List.range' j (min (j + PC + 1) N - j)).filter
        (keepP fails j)).length
        ≤ (List.range' j (min (j + PC + 1) N - j)).length :=
          List.length_filter_le _ _
      _ = min (j + PC + 1) N - j := List.length_range' _ _ _
      _ ≤ PC + 1 := by omega
  omega

/-- Claim C4 (counterexample): with three all-successful units and
`PREFETCH_COUNT = 2`, the `pending_futures` map already holds 3 entries
(indices 0, 1, 2) at the first await point — more than the claimed
steady-state bound of `prefetchWindow = 2` entries. -/
theorem C4_counterexample :
    ∃ snap ∈ schedSnapshots 3 PREFETCH_COUNT (fun _ => false),
      PREFETCH_COUNT < snap.length := by decide

/-- Claim C4 (amended): every `pending_futures` snapshot of a stream
holds at most (number of failing units) + prefetchWindow + 1 entries,
because the window spans `PREFETCH_COUNT + 1` indices (the one being
awaited plus the lookahead) and a failed unit's entry is never deleted;
in a failure-free stream every snapshot holds at most
`PREFETCH_COUNT + 1 = 3` entries, which is one more than the claimed
`prefetchWindow` steady-state bound but within
`prefetchWindow + workerCount = 4`. -/
theorem C4_pending_bound (N : Nat) (fails : Nat → Bool) (snap : List Nat)
    (hmem : snap ∈ schedSnapshots N PREFETCH_COUNT fails) :
    snap.length ≤
        ((List.range N).filter fails).length + (PREFETCH_COUNT + 1) ∧
      ((∀ k, fails k = false) →
        snap.length ≤ PREFETCH_COUNT + 1 ∧
          PREFETCH_COUNT + 1 ≤ PREFETCH_COUNT + WORKER_COUNT) := by
  obtain ⟨j, hjN, hform⟩ :=
    schedSnapshots_characterize N PREFETCH_COUNT fails snap hmem
  have hbound := snapshot_length_bound N PREFETCH_COUNT j fails hjN
  rw [← hform] at hbound
  refine ⟨hbound, fun hall => ⟨?_, by decide⟩⟩
  have hnil : (List.range N).filter fails = [] :=
    List.filter_eq_nil_iff.mpr (fun k _ => by simp [hall k])
  rw [hnil] at hbound
  simpa using hbound

/-- Witness for C4 (amended) at the concrete all-success stream with
three units. -/
theorem C4_witness :
    ([0, 1, 2] : List Nat).length ≤
        ((List.range 3).filter (fun _ => false)).length +
          (PREFETCH_COUNT + 1) ∧
      ([0, 1, 2] : List Nat).length ≤ PREFETCH_COUNT + 1 :=
  ⟨(C4_pending_bound 3 (fun _ => false) [0, 1, 2] (by decide)).1,
   ((C4_pending_bound 3 (fun _ => false) [0, 1, 2] (by decide)).2
     (fun _ => rfl)).1⟩

/-- Claim C8: over one whole stream, the history of indices actually
submitted to the executor is exactly 0, 1, ..., N-1 in order — each index
is dispatched exactly once, and an index already dispatched (or already
completed) is never redispatched, whatever the failure pattern. -/
theorem C8_dispatch_once (N : Nat) (fails : Nat → Bool) :
    dispatchHistory N PREFETCH_COUNT fails = List.range N ∧
      (dispatchHistory N PREFETCH_COUNT fails).Nodup := by
  have hmain : dispatchHistory N PREFETCH_COUNT fails = List.range N := by
    cases N with
    | zero => rfl
    | succ n =>
      have hinit := initSched_characterize (n + 1) PREFETCH_COUNT fails
      have hchar := schedRun_characterize (n + 1) PREFETCH_COUNT fails
        (n + 1) 0 (min (PREFETCH_COUNT + 1) (n + 1))
        (initSched (n + 1) PREFETCH_COUNT) (by omega) (by omega)
        (by omega) (by omega) hinit.1 hinit.2
      rw [dispatchHistory]
      have h2 := hchar.2
      rw [← List.range_eq_range'] at h2
      exact h2
  exact ⟨hmain, by rw [hmain]; exact List.nodup_range _⟩

/-! ## Segmenter lemmas. -/

lemma not_punct_of_space (c : Char) (h : isSpace c = true) :
    isTermPunct c = false := by
  cases hp : isTermPunct c
  · rfl
  · exfalso
    unfold isTermPunct at hp
    rcases Bool.or_eq_true_iff.mp hp with hor | h3
    · rcases Bool.or_eq_true_iff.mp hor with h1 | h2
      · rw [eq_of_beq h1] at h
        exact absurd h (by decide)
      · rw [eq_of_beq h2] at h
        exact absurd h (by decide)
    · rw [eq_of_beq h3] at h
      exact absurd h (by decide)

lemma lastIsPunct_space (acc : List Char)
    (h : ∀ c ∈ acc, isSpace c = true) : lastIsPunct acc = false := by
  cases acc with
  | nil => rfl
  | cons a l =>
    show isTermPunct a = false
    exact not_punct_of_space a (h a (List.mem_cons_self a l))

lemma splitScan_all_space (text : List Char) : ∀ (acc : List Char),
    (∀ c ∈ text, isSpace c = true) → (∀ c ∈ acc, isSpace c = true) →
    splitScan text acc false = [acc.reverse ++ text] := by
  induction text with
  | nil =>
    intro acc _ _
    simp [splitScan]
  | cons c rest ih =>
    intro acc ht ha
    have hc : isSpace c = true := ht c (List.mem_cons_self c rest)
    have hcond : (isSpace c && lastIsPunct acc) = false := by
      rw [lastIsPunct_space acc ha, Bool.and_false]
    rw [show splitScan (c :: rest) acc false =
        splitScan rest (c :: acc) false from by
      simp [splitScan, hcond]]
    rw [ih (c :: acc) (fun d hd => ht d (List.mem_cons_of_mem c hd))
      (fun d hd => by
        rcases List.mem_cons.mp hd with rfl | hd2
        · exact hc
        · exact ha d hd2)]
    simp

lemma strip_all_space (l : List Char) (h : ∀ c ∈ l, isSpace c = true) :
    strip l = [] := by
  unfold strip
  rw [List.dropWhile_eq_nil_iff.mpr h]
  rfl

/-- Claim C6: an input containing no units after segmentation — in
particular any whitespace-only input — produces the single terminal
completion event with total_chunks 0: no audio payloads and no error. -/
theorem C6_whitespace_only (text : List Char) (out : Nat → Outcome)
    (h : ∀ c ∈ text, isSpace c = true) :
    sentences text = [] ∧
      generate_chunks none text out = [Event.complete 0] := by
  have hs : sentences text = [] := by
    unfold sentences rawSplit
    rw [splitScan_all_space text [] h (by simp)]
    simp [strip_all_space text h]
  refine ⟨hs, ?_⟩
  simp [generate_chunks, hs]

/-- Witness for C6 at the concrete whitespace-only input of the spec's
example scenario. -/
theorem C6_witness :
    sentences (chars "   \n  ") = [] ∧
      generate_chunks none (chars "   \n  ") allOk = [Event.complete 0] :=
  C6_whitespace_only (chars "   \n  ") allOk (by decide)

lemma splitScan_skip_eq (text : List Char) :
    splitScan text [] true = splitScan (text.dropWhile isSpace) [] false := by
  induction text with
  | nil => rfl
  | cons c rest ih =>
    by_cases hc : isSpace c = true
    · rw [show splitScan (c :: rest) [] true = splitScan rest [] true from by
        simp [splitScan, hc]]
      rw [List.dropWhile_cons, if_pos hc]
      exact ih
    · have hc2 : isSpace c = false := Bool.eq_false_iff.mpr hc
      rw [show splitScan (c :: rest) [] true = splitScan rest [c] false from by
        simp [splitScan, hc2]]
      rw [List.dropWhile_cons, if_neg hc]
      rw [show splitScan (c :: rest) [] false = splitScan rest [c] false from by
        simp [splitScan, hc2]]

lemma splitScan_reconstruct :
    ∀ (n : Nat) (text acc : List Char), text.length ≤ n →
    ∃ seps, interleave (splitScan text acc false) seps = acc.reverse ++ text ∧
      seps.length + 1 = (splitScan text acc false).length ∧
      (∀ s ∈ seps, s ≠ [] ∧ ∀ c ∈ s, isSpace c = true) ∧
      (∀ pr ∈ (splitScan text acc false).zip seps,
        ∃ p, pr.1.getLast? = some p ∧ isTermPunct p = true) := by
  intro n
  induction n with
  | zero =>
    intro text acc hlen
    have htext : text = [] := List.eq_nil_of_length_eq_zero (by omega)
    subst htext
    exact ⟨[], by simp [splitScan, interleave], by simp [splitScan],
      by simp, by simp [splitScan]⟩
  | succ n ih =>
    intro text acc hlen
    cases text with
    | nil =>
      exact ⟨[], by simp [splitScan, interleave], by simp [splitScan],
        by simp, by simp [splitScan]⟩
    | cons c rest =>
      by_cases hsplit : (isSpace c && lastIsPunct acc) = true
      · have heq : splitScan (c :: rest) acc false =
            acc.reverse :: splitScan (rest.dropWhile isSpace) [] false := by
          rw [show splitScan (c :: rest) acc false =
              acc.reverse :: splitScan rest [] true from by
            simp [splitScan, hsplit]]
          rw [splitScan_skip_eq]
        obtain ⟨seps, h1, h2, h3, h4⟩ := ih (rest.dropWhile isSpace) [] (by
          have := (List.dropWhile_sublist (l := rest) isSpace).length_le
          simp only [List.length_cons] at hlen
          omega)
        have hacc : ∃ p, acc.reverse.getLast? = some p ∧
            isTermPunct p = true := by
          have hlp : lastIsPunct acc = true := by
            have hx := hsplit
            simp only [Bool.and_eq_true] at hx
            exact hx.2
          cases acc with
          | nil => exact absurd hlp (by simp [lastIsPunct])
          | cons a l =>
            refine ⟨a, ?_, hlp⟩
            rw [List.getLast?_reverse]
            rfl
        refine ⟨(c :: rest.takeWhile isSpace) :: seps, ?_, ?_, ?_, ?_⟩
        · rw [heq]
          show acc.reverse ++ (c :: rest.takeWhile isSpace) ++
            interleave (splitScan (rest.dropWhile isSpace) [] false) seps =
            acc.reverse ++ (c :: rest)
          rw [h1]
          simp [List.takeWhile_append_dropWhile]
        · rw [heq]
          simp only [List.length_cons]
          omega
        · intro s hs
          rcases List.mem_cons.mp hs with rfl | hs2
          · refine ⟨by simp, ?_⟩
            intro d hd
            rcases List.mem_cons.mp hd with rfl | hd2
            · have hx := hsplit
              simp only [Bool.and_eq_true] at hx
              exact hx.1
            · exact List.mem_takeWhile_imp hd2
          · exact h3 s hs2
        · rw [heq]
          intro pr hpr
          rw [List.zip_cons_cons] at hpr
          rcases List.mem_cons.mp hpr with rfl | hpr2
          · exact hacc
          · exact h4 pr hpr2
      · have heq : splitScan (c :: rest) acc false =
            splitScan rest (c :: acc) false := by
          simp [splitScan, hsplit]
        rw [heq]
        obtain ⟨seps, h1, h2, h3, h4⟩ := ih rest (c :: acc) (by
          simp only [List.length_cons] at hlen
          omega)
        refine ⟨seps, ?_, h2, h3, h4⟩
        rw [h1]
        simp

lemma dropWhile_head_not (p : Char → Bool) : ∀ (l : List Char) (c : Char),
    (l.dropWhile p).head? = some c → p c = false := by
  intro l
  induction l with
  | nil => intro c h; simp at h
  | cons a as ih =>
    intro c h
    by_cases ha : p a = true
    · rw [List.dropWhile_cons, if_pos ha] at h
      exact ih c h
    · rw [List.dropWhile_cons, if_neg ha] at h
      simp only [List.head?_cons, Option.some.injEq] at h
      rw [← h]
      exact Bool.eq_false_iff.mpr ha

lemma dropWhile_eq_self_of_head (p : Char → Bool) (l : List Char)
    (h : ∀ c, l.head? = some c → p c = false) : l.dropWhile p = l := by
  cases l with
  | nil => rfl
  | cons a as =>
    rw [List.dropWhile_cons, if_neg ?_]
    rw [h a rfl]
    simp

lemma strip_head_not (l : List Char) (c : Char)
    (h : (strip l).head? = some c) : isSpace c = false := by
  unfold strip at h
  rw [List.head?_reverse] at h
  have hne : (l.dropWhile isSpace).reverse.dropWhile isSpace ≠ [] := by
    intro hnil
    rw [hnil] at h
    simp at h
  obtain ⟨t, ht⟩ := List.dropWhile_suffix
    (l := (l.dropWhile isSpace).reverse) isSpace
  have hA : (l.dropWhile isSpace).reverse.getLast? = some c := by
    rw [← ht, List.getLast?_append_of_ne_nil t hne]
    exact h
  rw [List.getLast?_reverse] at hA
  exact dropWhile_head_not isSpace l c hA

lemma strip_last_not (l : List Char) (c : Char)
    (h : (strip l).getLast? = some c) : isSpace c = false := by
  unfold strip at h
  rw [List.getLast?_reverse] at h
  exact dropWhile_head_not isSpace (l.dropWhile isSpace).reverse c h

lemma strip_idem (l : List Char) : strip (strip l) = strip l := by
  show ((((strip l).dropWhile isSpace).reverse.dropWhile isSpace)).reverse =
    strip l
  rw [dropWhile_eq_self_of_head isSpace (strip l) (strip_head_not l)]
  rw [dropWhile_eq_self_of_head isSpace (strip l).reverse (fun c hc => by
    rw [List.head?_reverse] at hc
    exact strip_last_not l c hc)]
  exact List.reverse_reverse (strip l)

/-- Claim C7: segmentation splits exactly at maximal whitespace runs
whose preceding character is sentence-terminal punctuation (the
punctuation stays with the preceding piece and the separator itself is
removed), every surviving unit is non-empty and trimmed, empty units are
dropped after trimming, and the emitted sentence_index values are the
0-based contiguous positions of the units in order. -/
theorem C7_segmentation (text : List Char) :
    (∀ u ∈ sentences text, u ≠ [] ∧ strip u = u) ∧
    (∃ seps, interleave (rawSplit text) seps = text ∧
      seps.length + 1 = (rawSplit text).length ∧
      (∀ s ∈ seps, s ≠ [] ∧ ∀ c ∈ s, isSpace c = true) ∧
      (∀ pr ∈ (rawSplit text).zip seps,
        ∃ p, pr.1.getLast? = some p ∧ isTermPunct p = true)) ∧
    sentences text = ((rawSplit text).map strip).filter (fun u => !u.isEmpty) ∧
    sentenceIndices (generate_chunks none text allOk) =
      List.range (sentences text).length := by
  refine ⟨?_, ?_, rfl, ?_⟩
  · intro u hu
    have hmem := List.mem_filter.mp hu
    obtain ⟨v, -, hv⟩ := List.mem_map.mp hmem.1
    constructor
    · intro hnil
      rw [hnil] at hmem
      simp at hmem
    · rw [← hv, strip_idem]
  · obtain ⟨seps, h1, h2, h3, h4⟩ :=
      splitScan_reconstruct text.length text [] (le_refl _)
    exact ⟨seps, by simpa using h1, h2, h3, h4⟩
  · exact sentenceIndices_of_single_ok text allOk (fun _ _ => ⟨[0], rfl⟩)

/-- Witness for C7 at a concrete two-sentence input. -/
theorem C7_witness :
    ∃ seps, interleave (rawSplit (chars "Hi. Bye!")) seps =
        chars "Hi. Bye!" ∧
      seps.length + 1 = (rawSplit (chars "Hi. Bye!")).length ∧
      (∀ s ∈ seps, s ≠ [] ∧ ∀ c ∈ s, isSpace c = true) ∧
      (∀ pr ∈ (rawSplit (chars "Hi. Bye!")).zip seps,
        ∃ p, pr.1.getLast? = some p ∧ isTermPunct p = true) :=
  (C7_segmentation (chars "Hi. Bye!")).2.1

/-! ## is_final flag lemmas. -/

lemma finalFlags_append (l1 l2 : List Event) :
    finalFlags (l1 ++ l2) = finalFlags l1 ++ finalFlags l2 :=
  List.filterMap_append l1 l2 finalFlagOf

lemma finalFlags_sentenceEvents (N si ci : Nat) (chunks : List (List Nat)) :
    finalFlags (sentenceEvents N si ci chunks) =
      (List.range chunks.length).map
        (fun k => decide (si = N - 1) && decide (k = chunks.length - 1)) := by
  unfold finalFlags sentenceEvents
  rw [List.filterMap_map]
  have h : (finalFlagOf ∘ fun p : Nat × List Nat =>
      Event.audio (ci + p.1) si p.1 N p.2 p.2.length
        (decide (si = N - 1) && decide (p.1 = chunks.length - 1))) =
      some ∘ (fun p : Nat × List Nat =>
        decide (si = N - 1) && decide (p.1 = chunks.length - 1)) := by
    funext p; rfl
  rw [h, List.filterMap_eq_map]
  rw [show (fun p : Nat × List Nat =>
      decide (si = N - 1) && decide (p.1 = chunks.length - 1)) =
    (fun k => decide (si = N - 1) && decide (k = chunks.length - 1)) ∘
      Prod.fst from rfl]
  rw [← List.map_map, List.enum_map_fst]

lemma replicate_false_append_flags (la S : Nat) (b : Bool)
    (hb : b = true → 0 < S) :
    List.replicate la false ++
        (List.range S).map (fun k => decide (k = S - 1) && b) =
      (List.range (la + S)).map (fun k => decide (k = la + S - 1) && b) := by
  cases b with
  | false =>
    simp only [Bool.and_false, List.map_const', List.length_range]
    rw [← List.replicate_add]
  | true =>
    have hS : 0 < S := hb rfl
    induction la with
    | zero => simp
    | succ la ih =>
      rw [List.replicate_succ, List.cons_append]
      rw [show la + 1 + S = (la + S) + 1 from by omega,
        List.range_succ_eq_map, List.map_cons, List.map_map]
      congr 1
      · have hz : ¬ (0 = la + S) := by omega
        simp [hz]
      · rw [ih]
        apply List.map_congr_left
        intro k hk
        simp only [Function.comp]
        congr 1
        exact decide_eq_decide.mpr (by omega)

lemma finalFlags_emitUnits (N : Nat) (out : Nat → Outcome) :
    ∀ (m a ci : Nat), a + m = N →
      finalFlags (emitUnits N out (List.range' a m) ci) =
        (List.range ((List.range' a m).map (unitCount out)).sum).map
          (fun k =>
            decide (k = ((List.range' a m).map (unitCount out)).sum - 1) &&
              decide (0 < unitCount out (N - 1))) := by
  intro m
  induction m with
  | zero =>
    intro a ci _
    simp [List.range'_zero, emitUnits, finalFlags, finalFlagOf]
  | succ m ih =>
    intro a ci haN
    rw [List.range'_succ]
    have hsumc : ((a :: List.range' (a + 1) m).map (unitCount out)).sum =
        unitCount out a + ((List.range' (a + 1) m).map (unitCount out)).sum := by
      simp
    cases hout : out a with
    | failed r =>
      have hcount : unitCount out a = 0 := by simp [unitCount, hout]
      rw [show emitUnits N out (a :: List.range' (a + 1) m) ci =
          emitUnits N out (List.range' (a + 1) m) ci from by
        simp [emitUnits, hout]]
      rw [ih (a + 1) ci (by omega)]
      rw [hsumc, hcount, Nat.zero_add]
    | ok c =>
      by_cases hce : c.isEmpty
      · have hc0 : c = [] := List.isEmpty_iff.mp hce
        have hcount : unitCount out a = 0 := by simp [unitCount, hout, hc0]
        rw [show emitUnits N out (a :: List.range' (a + 1) m) ci =
            emitUnits N out (List.range' (a + 1) m) ci from by
          simp [emitUnits, hout, hce]]
        rw [ih (a + 1) ci (by omega)]
        rw [hsumc, hcount, Nat.zero_add]
      · have hcount : unitCount out a = c.length := by simp [unitCount, hout]
        have hcne : c ≠ [] := by
          intro h0
          rw [h0] at hce
          exact hce rfl
        have hclen : 0 < c.length := List.length_pos.mpr hcne
        rw [show emitUnits N out (a :: List.range' (a + 1) m) ci =
            sentenceEvents N a ci c ++
              emitUnits N out (List.range' (a + 1) m) (ci + c.length) from by
          simp [emitUnits, hout, hce]]
        rw [finalFlags_append, finalFlags_sentenceEvents,
          ih (a + 1) (ci + c.length) (by omega)]
        by_cases hlast : a = N - 1
        · have hm0 : m = 0 := by omega
          subst hm0
          simp only [List.range'_zero, List.map_nil, List.sum_nil,
            List.range_zero, List.append_nil, List.map_cons, List.sum_cons,
            Nat.add_zero]
          rw [hcount]
          apply List.map_congr_left
          intro k hk
          have hda : decide (a = N - 1) = true := decide_eq_true hlast
          have hdp : decide (0 < unitCount out (N - 1)) = true := by
            apply decide_eq_true
            rw [← hlast, hcount]
            exact hclen
          rw [hda, hdp, Bool.true_and, Bool.and_true]
        · have hfa : decide (a = N - 1) = false := decide_eq_false hlast
          rw [hfa]
          simp only [Bool.false_and, List.map_const', List.length_range]
          rw [hsumc, hcount]
          apply replicate_false_append_flags
          intro hbtrue
          have hpos : 0 < unitCount out (N - 1) := of_decide_eq_true hbtrue
          have hmem : N - 1 ∈ List.range' (a + 1) m := by
            have hm1 : 0 < m := by
              rcases Nat.eq_zero_or_pos m with h0 | h1
              · exfalso; apply hlast; omega
              · exact h1
            rw [List.mem_range'_1]
            omega
          have hle : unitCount out (N - 1) ≤
              ((List.range' (a + 1) m).map (unitCount out)).sum :=
            List.single_le_sum (fun x _ => Nat.zero_le x) _
              (List.mem_map.mpr ⟨N - 1, hmem, rfl⟩)
          omega

/-- Claim C5 (counterexample): with input "A. B." where the last unit's
synthesis fails, the stream still completes normally and emits unit 0's
payload, but that final (and only) payload of the stream carries
is_final = false — no payload carries is_final = true at all. -/
theorem C5_counterexample :
    failSecond 1 = Outcome.failed "boom" ∧
    generate_chunks none (chars "A. B.") failSecond =
      [Event.audio 0 0 0 2 [7] 1 false, Event.complete 1] := by decide

/-- Claim C5 (amended): the sequence of is_final flags over the emitted
payloads is all-false except possibly at the stream's very last payload,
where the flag is true exactly when the last segmented unit synthesizes
successfully with at least one chunk (it is that unit's last sub-chunk);
when the last unit fails or yields no audio, no payload carries
is_final = true even though earlier payloads and the completion event
are still emitted. -/
theorem C5_is_final (text : List Char) (out : Nat → Outcome) :
    finalFlags (generate_chunks none text out) =
      (List.range (numPayloads (generate_chunks none text out))).map
        (fun k =>
          decide (k = numPayloads (generate_chunks none text out) - 1) &&
            decide (0 < unitCount out ((sentences text).length - 1))) := by
  unfold generate_chunks
  by_cases he : (sentences text).isEmpty
  · simp [he, finalFlags, finalFlagOf, numPayloads, Event.isAudio]
  · rw [if_neg he]
    rw [show numPayloads (emitUnits (sentences text).length out
        (List.range (sentences text).length) 0) =
        ((List.range (sentences text).length).map (unitCount out)).sum from
      numPayloads_emitUnits _ _ _ _]
    rw [show List.range (sentences text).length =
      List.range' 0 (sentences text).length from List.range_eq_range' _]
    exact finalFlags_emitUnits (sentences text).length out
      (sentences text).length 0 0 (by omega)

/-! ## Normalization lemmas. -/

lemma maxAbs_cons (x : ℚ) (l : List ℚ) :
    maxAbs (x :: l) = max |x| (maxAbs l) := rfl

lemma maxAbs_map_mul (l : List ℚ) (g : ℚ) (hg : 0 ≤ g) :
    maxAbs (l.map (fun x => x * g)) = g * maxAbs l := by
  induction l with
  | nil => simp [maxAbs]
  | cons x xs ih =>
    rw [List.map_cons, maxAbs_cons, maxAbs_cons, ih]
    rw [abs_mul, abs_of_nonneg hg, mul_max_of_nonneg _ _ hg,
      mul_comm g |x|]

/-- Claim C9: when normalization is requested, a buffer with strictly
positive peak is rescaled so that its peak becomes exactly the fixed
target 0.707 (-3 dBFS), and a buffer with zero peak is returned
unchanged — the guard `max_val > 0` prevents any division by zero. -/
theorem C9_normalization (buf : List ℚ) (hne : buf ≠ []) :
    (0 < maxAbs buf →
      maxAbs (normalizeAudio true buf) = target_peak) ∧
    (maxAbs buf = 0 → normalizeAudio true buf = buf) := by
  constructor
  · intro hpos
    unfold normalizeAudio
    rw [if_pos rfl, if_pos hpos]
    rw [maxAbs_map_mul buf (target_peak / maxAbs buf)
      (div_nonneg (by norm_num [target_peak]) (le_of_lt hpos))]
    exact div_mul_cancel₀ target_peak (ne_of_gt hpos)
  · intro hz
    unfold normalizeAudio
    rw [if_pos rfl, if_neg (by rw [hz]; exact lt_irrefl 0)]

/-- Witness for C9 at a concrete two-sample buffer with peak 1/2. -/
theorem C9_witness :
    maxAbs (normalizeAudio true [(1 : ℚ)/2, -(1 : ℚ)/4]) = target_peak :=
  (C9_normalization [(1 : ℚ)/2, -(1 : ℚ)/4] (by simp)).1 (by
    rw [maxAbs_cons, maxAbs_cons]
    rw [abs_of_nonneg (by norm_num : (0:ℚ) ≤ 1/2),
      abs_of_nonpos (by norm_num : -(1:ℚ)/4 ≤ 0)]
    show (0:ℚ) < max (1/2) (max (-(-(1:ℚ)/4)) (maxAbs []))
    have h1 : maxAbs ([] : List ℚ) = 0 := rfl
    rw [h1]
    norm_num)
